import Mathlib

/-!
Verification of the AeroPulse time-index grouping and selection logic.

The repository contains four near-duplicate map screens.  Two of them
(`src/app/index.tsx` and `src/unnamed/part_001`) group the fetched
timestamp tokens without sorting; the other two (`src/unnamed/part_000`
and `src/unnamed/part_002`) additionally sort the date keys and the
intraday times in descending numeric order.  This file embeds both
variants.

Modelling conventions:
* A timestamp token (an opaque string such as `"20240101.000000"`) is a
  `List Char`; JavaScript `s.substring(i)` is `List.drop i` and
  `s.substring(i, j)` is `(List.take j).drop i`.
* The JavaScript object `{ [key: string]: string[] }` built by the
  `reduce` is modelled as an insertion-ordered association list: a new
  key is appended at the end, a token is pushed at the end of its
  bucket, and `Object.keys` is `List.map Prod.fst`.
* `parseInt` applied to the digit strings arising here is the numeric
  value of the longest digit prefix; `NaN` (no digit prefix) is mapped
  to `0` to totalise the sort comparators, which never meet it on the
  inputs of interest.
* `Array.prototype.sort` with the comparator
  `(a, b) => parseInt(b) - parseInt(a)` is a stable descending sort; it
  is modelled by `List.insertionSort` (stable) with the total preorder
  "numeric value not smaller".
* React state updates (`setAvailableTimes`, `setSelectedTime`,
  `setGroupedTimes`, `setSelectedDate`) are modelled as functional
  updates of a `HomeState` record; `null` / the empty string sentinel
  become `Option.none`.
-/

namespace AeroPulse

/-- A timestamp token such as `"20240101.000000"`, as its character list. -/
abbrev Token := List Char

/-- The date key `time.substring(0, 8)` of a token
(`src/app/index.tsx` line 71, `part_000` line 193). -/
def dateKey (t : Token) : Token := t.take 8

/-- Numeric value of a digit string, most significant digit first. -/
def digitsVal (s : List Char) : Nat :=
  s.foldl (fun n c => n * 10 + (c.toNat - 48)) 0

/-- JavaScript `parseInt` on the strings arising in this code base:
the numeric value of the longest leading digit run, `none` for `NaN`. -/
def parseIntPrefix (s : List Char) : Option Nat :=
  match s.takeWhile Char.isDigit with
  | [] => none
  | ds => some (digitsVal ds)

/-- The value a sort comparator sees: `parseInt`, with `NaN` totalised
to `0` (never reached on the digit strings of valid tokens). -/
def jsNum (s : List Char) : Nat := (parseIntPrefix s).getD 0

/-- One step of `availableTimes.reduce((acc, time) => ...)`
(`src/app/index.tsx` lines 70–77): push `t` at the end of the bucket
for its date key, creating the bucket at the end if it is absent. -/
def insertGroup (acc : List (Token × List Token)) (t : Token) :
    List (Token × List Token) :=
  match acc with
  | [] => [(dateKey t, [t])]
  | (k, b) :: rest =>
    if k = dateKey t then (k, b ++ [t]) :: rest
    else (k, b) :: insertGroup rest t

/-- The `grouped` object built by the `reduce` over the input list,
starting from the empty object. -/
def groupTimes (l : List Token) : List (Token × List Token) :=
  l.foldl insertGroup []

/-- JavaScript property lookup `m[k]` on the association-list model:
the bucket of the first entry with key `k`, `none` when absent. -/
def lookupKey (m : List (Token × List Token)) (k : Token) :
    Option (List Token) :=
  match m with
  | [] => none
  | (k', b) :: rest => if k' = k then some b else lookupKey rest k

/-- The bucket of `k`, defaulting to the empty list when absent. -/
def bucketOf (m : List (Token × List Token)) (k : Token) : List Token :=
  (lookupKey m k).getD []

/-- All tokens stored in an index, bucket after bucket. -/
def allTokens (m : List (Token × List Token)) : List Token :=
  (m.map Prod.snd).flatten

/-- The descending date comparator `(a, b) => parseInt(b) - parseInt(a)`
(`part_000` line 201), as the total preorder "a sorts no later than b". -/
def dateDesc (a b : Token) : Prop := jsNum b ≤ jsNum a

/-- The descending intraday comparator
`(a, b) => parseInt(b.substring(9)) - parseInt(a.substring(9))`
(`part_000` line 205). -/
def timeDesc (a b : Token) : Prop := jsNum (b.drop 9) ≤ jsNum (a.drop 9)

instance : DecidableRel dateDesc := fun a b =>
  inferInstanceAs (Decidable (jsNum b ≤ jsNum a))

instance : DecidableRel timeDesc := fun a b =>
  inferInstanceAs (Decidable (jsNum (b.drop 9) ≤ jsNum (a.drop 9)))

instance : IsTotal Token dateDesc :=
  ⟨fun a b => Nat.le_total (jsNum b) (jsNum a)⟩

instance : IsTrans Token dateDesc :=
  ⟨fun _ _ _ h h' => Nat.le_trans h' h⟩

instance : IsTotal Token timeDesc :=
  ⟨fun a b => Nat.le_total (jsNum (b.drop 9)) (jsNum (a.drop 9))⟩

instance : IsTrans Token timeDesc :=
  ⟨fun _ _ _ h h' => Nat.le_trans h' h⟩

/-- Sorted date keys:
`const sortedDates = Object.keys(grouped).sort((a, b) => parseInt(b) - parseInt(a))`
(`part_000` line 201, `part_002` line 170). -/
def sortedDates (l : List Token) : List Token :=
  List.insertionSort dateDesc ((groupTimes l).map Prod.fst)

/-- The `sortedGrouped` object (`part_000` lines 202–206): the keys in
`sortedDates` order, each bucket sorted by descending intraday value. -/
def sortedGroupTimes (l : List Token) : List (Token × List Token) :=
  (sortedDates l).map
    (fun d => (d, List.insertionSort timeDesc (bucketOf (groupTimes l) d)))

/-- Default date `setSelectedDate(sortedDates[0])` of the sorting variant
(`part_000` line 209, `part_002` line 177). -/
def sortedSelectedDate (l : List Token) : Option Token :=
  (sortedDates l).head?

/-- Default date `setSelectedDate(Object.keys(grouped)[0])` of the unsorted variant
(`src/app/index.tsx` line 80, `part_001` line 89). -/
def unsortedSelectedDate (l : List Token) : Option Token :=
  ((groupTimes l).map Prod.fst).head?

/-- A valid timestamp token in the fixed RealEarth format
`YYYYMMDD.HHMMSS`: fifteen characters, an eight-digit date, the `'.'`
separator, and six intraday digits (the layout `formatTime` slices at
indices 0–4, 4–6, 6–8, 9–11 and 11–13). -/
def validToken (t : Token) : Bool :=
  decide (t.length = 15) && (t.take 8).all Char.isDigit &&
    decide ((t.drop 8).head? = some '.') && (t.drop 9).all Char.isDigit

/-- The component state touched by the time-index logic:
`availableTimes`, `selectedTime`, `groupedTimes`, `selectedDate`. -/
structure HomeState where
  availableTimes : List Token
  selectedTime : Option Token
  groupedTimes : List (Token × List Token)
  selectedDate : Option Token

/-- The layer-switch reset (`src/app/index.tsx` lines 285–289 and
206–210): times, grouping, and selections are all cleared. -/
def resetState : HomeState :=
  { availableTimes := [], selectedTime := none,
    groupedTimes := [], selectedDate := none }

/-- The grouping `useEffect` of the unsorted variant
(`src/app/index.tsx` lines 67–82): behind the `availableTimes.length > 0`
guard it stores the grouped object and selects `Object.keys(grouped)[0]`. -/
def groupEffectUnsorted (times : List Token) (s : HomeState) : HomeState :=
  if 0 < times.length then
    { s with groupedTimes := groupTimes times,
             selectedDate := ((groupTimes times).map Prod.fst).head? }
  else s

/-- The grouping `useEffect` of the sorting variant
(`part_000` lines 190–211): behind the same guard it stores the sorted
object and selects `sortedDates[0]`. -/
def groupEffectSorted (times : List Token) (s : HomeState) : HomeState :=
  if 0 < times.length then
    { s with groupedTimes := sortedGroupTimes times,
             selectedDate := (sortedDates times).head? }
  else s

/-- The three outcomes of the `times` fetch in `fetchTimes`
(`src/app/index.tsx` lines 131–155): the request threw, the response
body lacked the product-id key, or it held a list of tokens. -/
inductive FetchResult where
  | netError
  | missingKey
  | ok (times : List Token)

/-- The state update performed by `fetchTimes`: a thrown error is only
logged, a missing key is silently skipped, and a token list is stored,
with `times[times.length - 1]` selected when the list is non-empty. -/
def fetchTimesUpd : FetchResult → HomeState → HomeState
  | .netError, s => s
  | .missingKey, s => s
  | .ok times, s =>
    if 0 < times.length then
      { s with availableTimes := times, selectedTime := times.getLast? }
    else
      { s with availableTimes := times }

/-- Display formatting `formatTime` (`src/app/index.tsx` lines 181–188): slices the token
at 0–4, 4–6, 6–8, 9–11, 11–13 and rebuilds a display string. -/
def formatTime (t : Token) : Token :=
  (t.take 4) ++ ('-' :: ((t.take 6).drop 4)) ++ ('-' :: ((t.take 8).drop 6))
    ++ (' ' :: ((t.take 11).drop 9)) ++ (':' :: ((t.take 13).drop 11))
    ++ " UTC".data

/-- Colour scale `getPolygonColor` (`src/app/index.tsx` lines 197–203), with the
probability as an exact rational. -/
def getPolygonColor (probability : ℚ) : String :=
  if probability ≥ 0.8 then "rgba(255, 0, 0, 0.5)"
  else if probability ≥ 0.6 then "rgba(255, 165, 0, 0.5)"
  else if probability ≥ 0.4 then "rgba(255, 255, 0, 0.5)"
  else "rgba(0, 255, 0, 0.5)"

/-- Severity rank of the four polygon colours: green 0, yellow 1,
orange 2, red 3. -/
def colorRank (c : String) : Nat :=
  if c = "rgba(255, 0, 0, 0.5)" then 3
  else if c = "rgba(255, 165, 0, 0.5)" then 2
  else if c = "rgba(255, 255, 0, 0.5)" then 1
  else 0

/-! ### Association-list lemmas about the `reduce`-built index -/

theorem keys_insertGroup (acc : List (Token × List Token)) (t : Token) :
    (insertGroup acc t).map Prod.fst =
      if dateKey t ∈ acc.map Prod.fst then acc.map Prod.fst
      else acc.map Prod.fst ++ [dateKey t] := by
  induction acc with
  | nil => simp [insertGroup]
  | cons p rest ih =>
    obtain ⟨k, b⟩ := p
    simp only [insertGroup]
    by_cases hk : k = dateKey t
    · subst hk
      simp
    · have hne : ¬ dateKey t = k := fun h => hk h.symm
      rw [if_neg hk]
      simp only [List.map_cons, List.mem_cons, hne, false_or, ih]
      by_cases hmem : dateKey t ∈ rest.map Prod.fst
      · simp [hmem]
      · simp [hmem]

theorem nodup_keys_insertGroup (acc : List (Token × List Token)) (t : Token)
    (h : (acc.map Prod.fst).Nodup) :
    ((insertGroup acc t).map Prod.fst).Nodup := by
  rw [keys_insertGroup]
  split_ifs with hmem
  · exact h
  · rw [List.nodup_append]
    refine ⟨h, List.nodup_singleton _, ?_⟩
    intro a ha hb
    rw [List.mem_singleton] at hb
    subst hb
    exact hmem ha

theorem nodup_keys_foldl (l : List Token) :
    ∀ acc, (acc.map Prod.fst).Nodup →
      ((l.foldl insertGroup acc).map Prod.fst).Nodup := by
  induction l with
  | nil => intro acc h; simpa using h
  | cons t l ih =>
    intro acc h
    simp only [List.foldl_cons]
    exact ih _ (nodup_keys_insertGroup acc t h)

theorem nodup_keys_groupTimes (l : List Token) :
    ((groupTimes l).map Prod.fst).Nodup :=
  nodup_keys_foldl l [] (by simp)

theorem mem_keys_insertGroup (acc : List (Token × List Token)) (t k : Token) :
    k ∈ (insertGroup acc t).map Prod.fst ↔
      k ∈ acc.map Prod.fst ∨ k = dateKey t := by
  rw [keys_insertGroup]
  split_ifs with hmem
  · constructor
    · exact Or.inl
    · rintro (h | rfl)
      · exact h
      · exact hmem
  · simp

theorem mem_keys_foldl (l : List Token) :
    ∀ acc k, k ∈ (l.foldl insertGroup acc).map Prod.fst ↔
      k ∈ acc.map Prod.fst ∨ ∃ t ∈ l, dateKey t = k := by
  induction l with
  | nil =>
    intro acc k
    simp
  | cons u l ih =>
    intro acc k
    simp only [List.foldl_cons]
    rw [ih, mem_keys_insertGroup]
    constructor
    · rintro ((h | rfl) | ⟨t, ht, rfl⟩)
      · exact Or.inl h
      · exact Or.inr ⟨u, by simp⟩
      · exact Or.inr ⟨t, by simp [ht]⟩
    · rintro (h | ⟨t, ht, rfl⟩)
      · exact Or.inl (Or.inl h)
      · rcases List.mem_cons.mp ht with rfl | ht'
        · exact Or.inl (Or.inr rfl)
        · exact Or.inr ⟨t, ht', rfl⟩

theorem mem_keys_groupTimes (l : List Token) (k : Token) :
    k ∈ (groupTimes l).map Prod.fst ↔ ∃ t ∈ l, dateKey t = k := by
  rw [groupTimes, mem_keys_foldl]
  simp

theorem lookupKey_insertGroup (acc : List (Token × List Token)) (t k : Token) :
    lookupKey (insertGroup acc t) k =
      if dateKey t = k then some (bucketOf acc k ++ [t])
      else lookupKey acc k := by
  induction acc with
  | nil =>
    by_cases h : dateKey t = k
    · simp [insertGroup, lookupKey, bucketOf, h]
    · simp [insertGroup, lookupKey, bucketOf, h]
  | cons p rest ih =>
    obtain ⟨k', b⟩ := p
    simp only [insertGroup]
    by_cases hk : k' = dateKey t
    · rw [if_pos hk]
      by_cases hkk : k' = k
      · have h1 : dateKey t = k := by rw [← hk, hkk]
        simp [lookupKey, hkk, h1, bucketOf]
      · have h1 : ¬ dateKey t = k := by rw [← hk]; exact hkk
        simp [lookupKey, hkk, h1]
    · rw [if_neg hk]
      by_cases hkk : k' = k
      · subst hkk
        have hne : ¬ dateKey t = k' := fun h => hk h.symm
        simp [lookupKey, hne]
      · simp only [lookupKey, if_neg hkk, ih]
        by_cases h : dateKey t = k
        · have hb : bucketOf ((k', b) :: rest) k = bucketOf rest k := by
            simp [bucketOf, lookupKey, hkk]
          simp [h, hb]
        · simp [h]

theorem bucketOf_insertGroup (acc : List (Token × List Token)) (t k : Token) :
    bucketOf (insertGroup acc t) k =
      if dateKey t = k then bucketOf acc k ++ [t] else bucketOf acc k := by
  rw [bucketOf, lookupKey_insertGroup]
  split_ifs with h
  · rfl
  · rfl

theorem bucketOf_foldl (l : List Token) :
    ∀ acc k, bucketOf (l.foldl insertGroup acc) k =
      bucketOf acc k ++ l.filter (fun t => decide (dateKey t = k)) := by
  induction l with
  | nil =>
    intro acc k
    simp
  | cons u l ih =>
    intro acc k
    simp only [List.foldl_cons, List.filter_cons]
    rw [ih, bucketOf_insertGroup]
    by_cases h : dateKey u = k
    · simp [h]
    · simp [h]

theorem bucketOf_groupTimes (l : List Token) (k : Token) :
    bucketOf (groupTimes l) k = l.filter (fun t => decide (dateKey t = k)) := by
  rw [groupTimes, bucketOf_foldl]
  simp [bucketOf, lookupKey]

theorem allTokens_insertGroup (acc : List (Token × List Token)) (t : Token) :
    List.Perm (allTokens (insertGroup acc t)) (allTokens acc ++ [t]) := by
  induction acc with
  | nil => simp [allTokens, insertGroup]
  | cons p rest ih =>
    obtain ⟨k, b⟩ := p
    simp only [insertGroup]
    by_cases hk : k = dateKey t
    · rw [if_pos hk]
      simp only [allTokens, List.map_cons, List.flatten_cons]
      have h1 : (b ++ [t]) ++ (rest.map Prod.snd).flatten
          = b ++ ([t] ++ (rest.map Prod.snd).flatten) := by
        rw [List.append_assoc]
      have h2 : (b ++ (rest.map Prod.snd).flatten) ++ [t]
          = b ++ ((rest.map Prod.snd).flatten ++ [t]) := by
        rw [List.append_assoc]
      rw [h1, h2]
      exact List.Perm.append_left b List.perm_append_comm
    · rw [if_neg hk]
      simp only [allTokens, List.map_cons, List.flatten_cons] at ih ⊢
      rw [List.append_assoc]
      exact List.Perm.append_left b ih

theorem allTokens_foldl (l : List Token) :
    ∀ acc, List.Perm (allTokens (l.foldl insertGroup acc)) (allTokens acc ++ l) := by
  induction l with
  | nil =>
    intro acc
    simp
  | cons u l ih =>
    intro acc
    simp only [List.foldl_cons]
    have h1 := ih (insertGroup acc u)
    have h2 : List.Perm (allTokens (insertGroup acc u) ++ l) ((allTokens acc ++ [u]) ++ l) :=
      (allTokens_insertGroup acc u).append_right l
    have h3 : (allTokens acc ++ [u]) ++ l = allTokens acc ++ (u :: l) := by
      simp
    rw [← h3]
    exact h1.trans h2

theorem allTokens_groupTimes (l : List Token) :
    List.Perm (allTokens (groupTimes l)) l := by
  have h := allTokens_foldl l []
  simpa [allTokens] using h

theorem lookupKey_eq_none (m : List (Token × List Token)) (k : Token) :
    lookupKey m k = none ↔ k ∉ m.map Prod.fst := by
  induction m with
  | nil => simp [lookupKey]
  | cons p rest ih =>
    obtain ⟨k', b⟩ := p
    by_cases h : k' = k
    · subst h
      simp [lookupKey]
    · have h' : ¬ k = k' := fun hh => h hh.symm
      simp [lookupKey, h, ih, h']

theorem mem_of_mem_keys (k : Token) :
    ∀ m : List (Token × List Token), k ∈ m.map Prod.fst →
      (k, bucketOf m k) ∈ m := by
  intro m
  induction m with
  | nil =>
    intro h
    simp at h
  | cons p rest ih =>
    intro h
    obtain ⟨k', b⟩ := p
    by_cases hk : k' = k
    · subst hk
      have hb : bucketOf ((k', b) :: rest) k' = b := by
        simp [bucketOf, lookupKey]
      rw [hb]
      exact List.mem_cons_self _ _
    · simp only [List.map_cons, List.mem_cons] at h
      rcases h with h | h

      · exact absurd h.symm hk
      · have hb : bucketOf ((k', b) :: rest) k = bucketOf rest k := by
          simp [bucketOf, lookupKey, hk]
        rw [hb]
        exact List.mem_cons_of_mem _ (ih h)

theorem lookupKey_eq_of_mem (k : Token) (b : List Token) :
    ∀ m : List (Token × List Token), (k, b) ∈ m →
      (m.map Prod.fst).Nodup → lookupKey m k = some b := by
  intro m
  induction m with
  | nil =>
    intro hmem _
    simp at hmem
  | cons p rest ih =>
    intro hmem hnd
    obtain ⟨k', b'⟩ := p
    simp only [List.map_cons, List.nodup_cons] at hnd
    rcases List.mem_cons.mp hmem with h | h
    · injection h with h1 h2
      subst h1
      subst h2
      simp [lookupKey]
    · by_cases hk : k' = k
      · subst hk
        have : k' ∈ rest.map Prod.fst := by
          have := List.mem_map_of_mem Prod.fst h
          simpa using this
        exact absurd this hnd.1
      · simp only [lookupKey, if_neg hk]
        exact ih h hnd.2

theorem lookupKey_map_keys (f : Token → List Token) (k : Token) :
    ∀ ds : List Token,
      lookupKey (ds.map fun d => (d, f d)) k
        = if k ∈ ds then some (f k) else none := by
  intro ds
  induction ds with
  | nil => simp [lookupKey]
  | cons d rest ih =>
    simp only [List.map_cons, lookupKey]
    by_cases hd : d = k
    · subst hd
      simp
    · have hkd : ¬ k = d := fun h => hd h.symm
      rw [if_neg hd, ih]
      by_cases hm : k ∈ rest
      · simp [hm, hkd]
      · simp [hm, hkd]

theorem pairwise_imp_of_mem {R S : Token → Token → Prop} :
    ∀ {l : List Token}, (∀ a ∈ l, ∀ b ∈ l, R a b → S a b) →
      l.Pairwise R → l.Pairwise S := by
  intro l
  induction l with
  | nil =>
    intro _ _
    exact List.Pairwise.nil
  | cons a l ih =>
    intro hmem hp
    rcases List.pairwise_cons.mp hp with ⟨ha, hl⟩
    refine List.Pairwise.cons ?_ (ih ?_ hl)
    · intro b hb
      exact hmem a (by simp) b (by simp [hb]) (ha b hb)
    · intro x hx y hy hxy
      exact hmem x (by simp [hx]) y (by simp [hy]) hxy

/-! ### Numeric values of digit strings -/

theorem char_digit_bounds (c : Char) (h : c.isDigit = true) :
    48 ≤ c.toNat ∧ c.toNat ≤ 57 := by
  simp only [Char.isDigit, Bool.and_eq_true, decide_eq_true_eq, ge_iff_le] at h
  obtain ⟨h1, h2⟩ := h
  rw [UInt32.le_def, BitVec.le_def] at h1 h2
  exact ⟨h1, h2⟩

theorem char_toNat_inj (c d : Char) (h : c.toNat = d.toNat) : c = d := by
  have h' := congrArg Char.ofNat h
  simpa [Char.ofNat_toNat] using h'

theorem digitsVal_foldl (s : List Char) (n : Nat) :
    s.foldl (fun m c => m * 10 + (c.toNat - 48)) n
      = n * 10 ^ s.length + digitsVal s := by
  induction s generalizing n with
  | nil => simp [digitsVal]
  | cons c s ih =>
    have h0 : digitsVal (c :: s)
        = (c.toNat - 48) * 10 ^ s.length + digitsVal s := by
      have h1 := ih (c.toNat - 48)
      simp only [digitsVal, List.foldl_cons] at h1 ⊢
      simpa using h1
    simp only [List.foldl_cons, List.length_cons]
    rw [ih (n * 10 + (c.toNat - 48)), h0]
    ring

theorem digitsVal_cons (c : Char) (s : List Char) :
    digitsVal (c :: s) = (c.toNat - 48) * 10 ^ s.length + digitsVal s := by
  have h1 := digitsVal_foldl s (c.toNat - 48)
  simp only [digitsVal, List.foldl_cons]
  simpa using h1

theorem digitsVal_lt (s : List Char) (h : s.all Char.isDigit = true) :
    digitsVal s < 10 ^ s.length := by
  induction s with
  | nil => simp [digitsVal]
  | cons c s ih =>
    simp only [List.all_cons, Bool.and_eq_true] at h
    have hc := char_digit_bounds c h.1
    have hs := ih h.2
    rw [digitsVal_cons, List.length_cons]
    calc (c.toNat - 48) * 10 ^ s.length + digitsVal s
        < (c.toNat - 48) * 10 ^ s.length + 10 ^ s.length := by omega
      _ = (c.toNat - 48 + 1) * 10 ^ s.length := by ring
      _ ≤ 10 * 10 ^ s.length := Nat.mul_le_mul_right _ (by omega)
      _ = 10 ^ (s.length + 1) := by ring

theorem digitsVal_inj (a : List Char) :
    ∀ b : List Char, a.length = b.length →
      a.all Char.isDigit = true → b.all Char.isDigit = true →
      digitsVal a = digitsVal b → a = b := by
  induction a with
  | nil =>
    intro b hlen _ _ _
    cases b with
    | nil => rfl
    | cons d bs => simp at hlen
  | cons c as ih =>
    intro b hlen ha hb hv
    cases b with
    | nil => simp at hlen
    | cons d bs =>
      simp only [List.all_cons, Bool.and_eq_true] at ha hb
      simp only [List.length_cons, Nat.succ.injEq] at hlen
      rw [digitsVal_cons, digitsVal_cons, hlen] at hv
      have hca := char_digit_bounds c ha.1
      have hdb := char_digit_bounds d hb.1
      have hva := digitsVal_lt as ha.2
      have hvb := digitsVal_lt bs hb.2
      rw [hlen] at hva
      have hdig : c.toNat - 48 = d.toNat - 48 := by
        by_contra hne
        rcases Nat.lt_or_ge (c.toNat - 48) (d.toNat - 48) with hlt | hge
        · nlinarith [hv, hva, hvb]
        · have hgt : d.toNat - 48 < c.toNat - 48 := by omega
          nlinarith [hv, hva, hvb]
      have hcd : c = d := char_toNat_inj c d (by omega)
      have hval : digitsVal as = digitsVal bs := by
        rw [hdig] at hv
        omega
      rw [hcd, ih bs hlen ha.2 hb.2 hval]

theorem jsNum_of_all_digits (s : List Char) (h : s.all Char.isDigit = true) :
    jsNum s = digitsVal s := by
  cases s with
  | nil => simp [jsNum, parseIntPrefix, digitsVal]
  | cons c cs =>
    have htw : (c :: cs).takeWhile Char.isDigit = c :: cs :=
      List.takeWhile_eq_self_iff.mpr (by simpa [List.all_eq_true] using h)
    have hp : parseIntPrefix (c :: cs) = some (digitsVal (c :: cs)) := by
      simp only [parseIntPrefix, htw]
    simp [jsNum, hp]

/-! ### Facts about valid tokens -/

theorem validToken_parts (t : Token) (h : validToken t = true) :
    (dateKey t).length = 8 ∧ (dateKey t).all Char.isDigit = true ∧
      (t.drop 9).length = 6 ∧ (t.drop 9).all Char.isDigit = true := by
  simp only [validToken, Bool.and_eq_true, decide_eq_true_eq] at h
  obtain ⟨⟨⟨hlen, hdig⟩, _⟩, hrest⟩ := h
  refine ⟨?_, hdig, ?_, hrest⟩
  · simp [dateKey, List.length_take, hlen]
  · simp [List.length_drop, hlen]

theorem jsNum_dateKey_valid (t : Token) (h : validToken t = true) :
    jsNum (dateKey t) = digitsVal (dateKey t) :=
  jsNum_of_all_digits _ (validToken_parts t h).2.1

theorem keys_valid (l : List Token) (hv : ∀ t ∈ l, validToken t = true) :
    ∀ k ∈ (groupTimes l).map Prod.fst,
      k.length = 8 ∧ k.all Char.isDigit = true := by
  intro k hk
  obtain ⟨t, ht, rfl⟩ := (mem_keys_groupTimes l k).mp hk
  have h := validToken_parts t (hv t ht)
  exact ⟨h.1, h.2.1⟩

/-! ### Structure of the sorted index -/

theorem perm_sortedDates (l : List Token) :
    List.Perm (sortedDates l) ((groupTimes l).map Prod.fst) :=
  List.perm_insertionSort dateDesc _

theorem sorted_sortedDates (l : List Token) :
    List.Sorted dateDesc (sortedDates l) :=
  List.sorted_insertionSort dateDesc _

theorem nodup_sortedDates (l : List Token) : (sortedDates l).Nodup :=
  ((perm_sortedDates l).nodup_iff).mpr (nodup_keys_groupTimes l)

theorem keys_sortedGroupTimes (l : List Token) :
    (sortedGroupTimes l).map Prod.fst = sortedDates l := by
  rw [sortedGroupTimes, List.map_map]
  exact List.map_id _

theorem groupTimes_ne_nil (l : List Token) (hne : l ≠ []) :
    groupTimes l ≠ [] := by
  intro h
  have hp := (allTokens_groupTimes l).length_eq
  rw [h] at hp
  simp only [allTokens, List.map_nil, List.flatten_nil, List.length_nil] at hp
  exact hne (List.eq_nil_of_length_eq_zero hp.symm)

theorem pairwise_and {R S : Token → Token → Prop} :
    ∀ {l : List Token}, l.Pairwise R → l.Pairwise S →
      l.Pairwise fun a b => R a b ∧ S a b := by
  intro l
  induction l with
  | nil =>
    intro _ _
    exact List.Pairwise.nil
  | cons a l ih =>
    intro h1 h2
    rcases List.pairwise_cons.mp h1 with ⟨ha1, hl1⟩
    rcases List.pairwise_cons.mp h2 with ⟨ha2, hl2⟩
    exact List.Pairwise.cons (fun b hb => ⟨ha1 b hb, ha2 b hb⟩) (ih hl1 hl2)

/-! ### Claim theorems -/

/-- C1 (amended): in the sorting variant (`part_000`/`part_002`), for a
non-empty list of valid tokens the built index lists its date keys in
strictly descending numeric date order, and every bucket is ordered by
descending intraday value (the digits after the date prefix and its
separator). -/
theorem sortedIndex_descending (l : List Token) (hne : l ≠ [])
    (hv : ∀ t ∈ l, validToken t = true) :
    ((sortedGroupTimes l).map Prod.fst).Pairwise
        (fun a b => digitsVal b < digitsVal a)
    ∧ ∀ p ∈ sortedGroupTimes l,
        p.2.Pairwise fun a b => digitsVal (b.drop 9) ≤ digitsVal (a.drop 9) := by
  constructor
  · rw [keys_sortedGroupTimes]
    have hcomb := pairwise_and (sorted_sortedDates l) (nodup_sortedDates l)
    refine pairwise_imp_of_mem ?_ hcomb
    intro a ha b hb hab
    have hva := keys_valid l hv a ((perm_sortedDates l).mem_iff.mp ha)
    have hvb := keys_valid l hv b ((perm_sortedDates l).mem_iff.mp hb)
    obtain ⟨hle, hab'⟩ := hab
    have hle' : jsNum b ≤ jsNum a := hle
    rw [jsNum_of_all_digits _ hva.2, jsNum_of_all_digits _ hvb.2] at hle'
    have hlen : a.length = b.length := by rw [hva.1, hvb.1]
    have hvne : digitsVal b ≠ digitsVal a := by
      intro he
      exact hab' (digitsVal_inj a b hlen hva.2 hvb.2 he.symm)
    omega
  · intro p hp
    obtain ⟨d, hd, rfl⟩ := List.mem_map.mp hp
    have hsorted : (List.insertionSort timeDesc
        (bucketOf (groupTimes l) d)).Pairwise timeDesc :=
      List.sorted_insertionSort timeDesc _
    refine pairwise_imp_of_mem ?_ hsorted
    intro a ha b hb hab
    rw [List.mem_insertionSort, bucketOf_groupTimes] at ha hb
    have hal : a ∈ l := (List.mem_filter.mp ha).1
    have hbl : b ∈ l := (List.mem_filter.mp hb).1
    have hda := (validToken_parts a (hv a hal)).2.2.2
    have hdb := (validToken_parts b (hv b hbl)).2.2.2
    have hab' : jsNum (b.drop 9) ≤ jsNum (a.drop 9) := hab
    rw [jsNum_of_all_digits _ hda, jsNum_of_all_digits _ hdb] at hab'
    exact hab'

theorem sortedIndex_descending_witness :
    ((["20240102.120000".data, "20240101.060000".data,
        "20240102.000000".data] : List Token) ≠ []
      ∧ ∀ t ∈ (["20240102.120000".data, "20240101.060000".data,
          "20240102.000000".data] : List Token), validToken t = true)
    ∧ (((sortedGroupTimes ["20240102.120000".data, "20240101.060000".data,
          "20240102.000000".data]).map Prod.fst).Pairwise
        (fun a b => digitsVal b < digitsVal a)
      ∧ ∀ p ∈ sortedGroupTimes ["20240102.120000".data,
          "20240101.060000".data, "20240102.000000".data],
          p.2.Pairwise fun a b =>
            digitsVal (b.drop 9) ≤ digitsVal (a.drop 9)) :=
  ⟨⟨by decide, by decide⟩,
    sortedIndex_descending _ (by decide) (by decide)⟩

/-- C1 (counterexample): the unsorted variant (`src/app/index.tsx`,
`part_001`) keeps buckets in input order; on two valid same-day tokens
arriving in ascending time order the bucket is not descending. -/
theorem unsortedIndex_not_descending :
    bucketOf (groupTimes ["20240101.000000".data, "20240101.060000".data])
        ("20240101".data)
      = ["20240101.000000".data, "20240101.060000".data]
    ∧ (∀ t ∈ (["20240101.000000".data, "20240101.060000".data] : List Token),
        validToken t = true)
    ∧ ¬ (bucketOf (groupTimes
          ["20240101.000000".data, "20240101.060000".data])
          ("20240101".data)).Pairwise
        fun a b => digitsVal (b.drop 9) ≤ digitsVal (a.drop 9) := by
  refine ⟨by decide, by decide, ?_⟩
  decide

/-- C2 (amended): in the sorting variant the selected default date is
the numerically greatest date key present in the input. -/
theorem sortedSelectedDate_is_max (l : List Token) (hne : l ≠ [])
    (hv : ∀ t ∈ l, validToken t = true) :
    ∃ k, sortedSelectedDate l = some k
      ∧ k ∈ (groupTimes l).map Prod.fst
      ∧ ∀ k' ∈ (groupTimes l).map Prod.fst, digitsVal k' ≤ digitsVal k := by
  cases hsd : sortedDates l with
  | nil =>
    exfalso
    have hk := (perm_sortedDates l).length_eq
    rw [hsd] at hk
    have hgn := groupTimes_ne_nil l hne
    have : (groupTimes l).map Prod.fst = [] :=
      List.eq_nil_of_length_eq_zero hk.symm
    rw [List.map_eq_nil_iff] at this
    exact hgn this
  | cons k rest =>
    refine ⟨k, ?_, ?_, ?_⟩
    · simp [sortedSelectedDate, hsd]
    · have hk : k ∈ sortedDates l := by
        rw [hsd]
        exact List.mem_cons_self _ _
      exact (perm_sortedDates l).mem_iff.mp hk
    · intro k' hk'
      have hk'sd : k' ∈ sortedDates l := (perm_sortedDates l).mem_iff.mpr hk'
      rw [hsd] at hk'sd
      have hvk := keys_valid l hv k
        ((perm_sortedDates l).mem_iff.mp (by rw [hsd]; exact List.mem_cons_self _ _))
      have hvk' := keys_valid l hv k' hk'
      rcases List.mem_cons.mp hk'sd with rfl | hmem
      · exact Nat.le_refl _
      · have hsort := sorted_sortedDates l
        rw [hsd] at hsort
        have hdd : dateDesc k k' := List.rel_of_sorted_cons hsort k' hmem
        have hdd' : jsNum k' ≤ jsNum k := hdd
        rw [jsNum_of_all_digits _ hvk.2, jsNum_of_all_digits _ hvk'.2] at hdd'
        exact hdd'

theorem sortedSelectedDate_is_max_witness :
    ((["20240101.000000".data, "20240102.000000".data] : List Token) ≠ []
      ∧ ∀ t ∈ (["20240101.000000".data, "20240102.000000".data] : List Token),
          validToken t = true)
    ∧ ∃ k, sortedSelectedDate
          ["20240101.000000".data, "20240102.000000".data] = some k
        ∧ k ∈ (groupTimes
            ["20240101.000000".data, "20240102.000000".data]).map Prod.fst
        ∧ ∀ k' ∈ (groupTimes
            ["20240101.000000".data, "20240102.000000".data]).map Prod.fst,
            digitsVal k' ≤ digitsVal k :=
  ⟨⟨by decide, by decide⟩, sortedSelectedDate_is_max _ (by decide) (by decide)⟩

/-- C2 (counterexample): the unsorted variant assigns
`Object.keys(grouped)[0]`, the date of the first token in input order;
on valid tokens arriving oldest-first the selected date is not the
numerically greatest key present. -/
theorem unsortedSelectedDate_not_max :
    (∀ t ∈ (["20240101.000000".data, "20240102.000000".data] : List Token),
        validToken t = true)
    ∧ unsortedSelectedDate ["20240101.000000".data, "20240102.000000".data]
        = some "20240101".data
    ∧ "20240102".data ∈ (groupTimes
        ["20240101.000000".data, "20240102.000000".data]).map Prod.fst
    ∧ digitsVal "20240101".data < digitsVal "20240102".data := by
  refine ⟨by decide, by decide, by decide, ?_⟩
  decide

/-- C3 (confirmed): every input token lands in exactly the bucket keyed
by its first eight characters, keys are pairwise distinct, the buckets
concatenate to a permutation of the input, and the stored mapping is a
function of the input alone, independent of the previous state. -/
theorem grouping_partition (l : List Token) (hne : l ≠ [])
    (hv : ∀ t ∈ l, validToken t = true) :
    (∀ t ∈ l, ∃ b, (dateKey t, b) ∈ groupTimes l ∧ t ∈ b)
    ∧ (∀ p ∈ groupTimes l, ∀ t ∈ p.2, dateKey t = p.1)
    ∧ ((groupTimes l).map Prod.fst).Nodup
    ∧ List.Perm (allTokens (groupTimes l)) l
    ∧ ∀ s s' : HomeState,
        (groupEffectUnsorted l s).groupedTimes
          = (groupEffectUnsorted l s').groupedTimes
        ∧ (groupEffectSorted l s).groupedTimes
          = (groupEffectSorted l s').groupedTimes := by
  refine ⟨?_, ?_, nodup_keys_groupTimes l, allTokens_groupTimes l, ?_⟩
  · intro t ht
    have hk : dateKey t ∈ (groupTimes l).map Prod.fst :=
      (mem_keys_groupTimes l (dateKey t)).mpr ⟨t, ht, rfl⟩
    refine ⟨bucketOf (groupTimes l) (dateKey t),
      mem_of_mem_keys _ _ hk, ?_⟩
    rw [bucketOf_groupTimes]
    exact List.mem_filter.mpr ⟨ht, by simp⟩
  · intro p hp t ht
    obtain ⟨k, b⟩ := p
    have hl := lookupKey_eq_of_mem k b (groupTimes l) hp
      (nodup_keys_groupTimes l)
    have hb : b = bucketOf (groupTimes l) k := by
      rw [bucketOf, hl]
      rfl
    rw [hb, bucketOf_groupTimes] at ht
    have hd := (List.mem_filter.mp ht).2
    simpa using hd
  · intro s s'
    have hpos : 0 < l.length := List.length_pos.mpr hne
    constructor
    · simp [groupEffectUnsorted, hpos]
    · simp [groupEffectSorted, hpos]

theorem grouping_partition_witness :
    ((["20240102.120000".data, "20240101.060000".data] : List Token) ≠ []
      ∧ ∀ t ∈ (["20240102.120000".data, "20240101.060000".data] :
          List Token), validToken t = true)
    ∧ ((∀ t ∈ (["20240102.120000".data, "20240101.060000".data] :
          List Token), ∃ b, (dateKey t, b) ∈ groupTimes
            ["20240102.120000".data, "20240101.060000".data] ∧ t ∈ b)
      ∧ (∀ p ∈ groupTimes ["20240102.120000".data, "20240101.060000".data],
          ∀ t ∈ p.2, dateKey t = p.1)
      ∧ ((groupTimes
          ["20240102.120000".data, "20240101.060000".data]).map
            Prod.fst).Nodup
      ∧ List.Perm (allTokens (groupTimes
          ["20240102.120000".data, "20240101.060000".data]))
          ["20240102.120000".data, "20240101.060000".data]
      ∧ ∀ s s' : HomeState,
          (groupEffectUnsorted
            ["20240102.120000".data, "20240101.060000".data] s).groupedTimes
            = (groupEffectUnsorted
              ["20240102.120000".data, "20240101.060000".data] s').groupedTimes
          ∧ (groupEffectSorted
            ["20240102.120000".data, "20240101.060000".data] s).groupedTimes
            = (groupEffectSorted
              ["20240102.120000".data, "20240101.060000".data]
                s').groupedTimes) :=
  ⟨⟨by decide, by decide⟩, grouping_partition _ (by decide) (by decide)⟩

/-- C4 (amended): on the spec's test vector the sorting variant produces
exactly the expected mapping — key `"20240102"` first with its single
token, then `"20240101"` with its tokens in descending intraday order —
and selects default date `"20240102"`. -/
theorem sortedVariant_example :
    sortedGroupTimes ["202401010000".data, "202401010600".data,
        "202401020000".data]
      = [("20240102".data, ["202401020000".data]),
         ("20240101".data, ["202401010600".data, "202401010000".data])]
    ∧ sortedSelectedDate ["202401010000".data, "202401010600".data,
        "202401020000".data] = some "20240102".data := by
  refine ⟨?_, ?_⟩ <;> decide

/-- C4 (counterexample): on that input the unsorted variant
(`src/app/index.tsx`) keeps first-occurrence key order and input bucket
order, so it does not produce the claimed mapping, and it selects
`"20240101"` rather than `"20240102"`. -/
theorem unsortedVariant_example :
    groupTimes ["202401010000".data, "202401010600".data,
        "202401020000".data]
      = [("20240101".data, ["202401010000".data, "202401010600".data]),
         ("20240102".data, ["202401020000".data])]
    ∧ groupTimes ["202401010000".data, "202401010600".data,
        "202401020000".data]
      ≠ [("20240102".data, ["202401020000".data]),
         ("20240101".data, ["202401010600".data, "202401010000".data])]
    ∧ unsortedSelectedDate ["202401010000".data, "202401010600".data,
        "202401020000".data] = some "20240101".data := by
  refine ⟨by decide, by decide, ?_⟩
  decide

/-- C5 (confirmed): whenever the fetched list is non-empty, the selected
time is `times[times.length - 1]`, the last token in input order. -/
theorem fetchTimes_selects_last (l : List Token) (s : HomeState)
    (hne : l ≠ []) :
    (fetchTimesUpd (.ok l) s).selectedTime = l.getLast? := by
  have hpos : 0 < l.length := List.length_pos.mpr hne
  simp [fetchTimesUpd, hpos]

theorem fetchTimes_selects_last_witness :
    (["20240101.000000".data, "20240101.060000".data] : List Token) ≠ []
    ∧ (fetchTimesUpd
        (.ok ["20240101.000000".data, "20240101.060000".data])
        resetState).selectedTime
      = (["20240101.000000".data, "20240101.060000".data] :
          List Token).getLast? :=
  ⟨by decide, fetchTimes_selects_last _ resetState (by decide)⟩

/-- C6 (confirmed): on an empty token list the grouping effect of either
variant is the identity, so from the reset state the mapping stays empty
and no default date or time is selected. -/
theorem groupEffect_empty_noop (s : HomeState) :
    groupEffectUnsorted [] s = s ∧ groupEffectSorted [] s = s
    ∧ (groupEffectUnsorted [] resetState).groupedTimes = []
    ∧ (groupEffectUnsorted [] resetState).selectedDate = none
    ∧ (groupEffectUnsorted [] resetState).selectedTime = none
    ∧ (groupEffectSorted [] resetState).groupedTimes = []
    ∧ (groupEffectSorted [] resetState).selectedDate = none
    ∧ (groupEffectSorted [] resetState).selectedTime = none :=
  ⟨rfl, rfl, rfl, rfl, rfl, rfl, rfl, rfl⟩

/-- C7 (code evaluation): the source does not fail fast on a malformed
token — grouping silently files the too-short token `"2024"` under the
clamped key `"2024"`, and `formatTime` silently renders it as
`"2024-- : UTC"` instead of raising a validation error. -/
theorem short_token_silently_grouped :
    groupTimes ["2024".data] = [("2024".data, ["2024".data])]
    ∧ validToken "2024".data = false
    ∧ formatTime "2024".data = "2024-- : UTC".data := by
  refine ⟨by decide, by decide, ?_⟩
  decide

/-- C8 (confirmed): a thrown request error or a response body without
the product-id key leaves the component state exactly unchanged —
neither the available times nor the selected time is populated, and no
user-visible error state is introduced. -/
theorem fetchTimes_error_atomic (s : HomeState) :
    fetchTimesUpd .netError s = s ∧ fetchTimesUpd .missingKey s = s :=
  ⟨rfl, rfl⟩

/-- C9 (confirmed): the unsorted and sorting grouping variants agree on
the set of date keys, and for each key their buckets hold the same
tokens up to order. -/
theorem variant_buckets_agree (l : List Token)
    (hv : ∀ t ∈ l, validToken t = true) :
    (∀ k, k ∈ (groupTimes l).map Prod.fst
        ↔ k ∈ (sortedGroupTimes l).map Prod.fst)
    ∧ ∀ k, List.Perm (bucketOf (groupTimes l) k)
        (bucketOf (sortedGroupTimes l) k) := by
  constructor
  · intro k
    rw [keys_sortedGroupTimes]
    exact ((perm_sortedDates l).mem_iff).symm
  · intro k
    have hb : bucketOf (sortedGroupTimes l) k
        = if k ∈ sortedDates l
          then List.insertionSort timeDesc (bucketOf (groupTimes l) k)
          else [] := by
      rw [bucketOf, sortedGroupTimes, lookupKey_map_keys]
      split_ifs with h
      · rfl
      · rfl
    rw [hb]
    split_ifs with h
    · exact (List.perm_insertionSort timeDesc _).symm
    · have hk : k ∉ (groupTimes l).map Prod.fst := by
        intro hk
        exact h ((perm_sortedDates l).mem_iff.mpr hk)
      have hnone : lookupKey (groupTimes l) k = none :=
        (lookupKey_eq_none _ _).mpr hk
      rw [bucketOf, hnone]
      exact List.Perm.refl _

theorem variant_buckets_agree_witness :
    (∀ t ∈ (["20240102.120000".data, "20240101.060000".data,
        "20240102.000000".data] : List Token), validToken t = true)
    ∧ ((∀ k, k ∈ (groupTimes ["20240102.120000".data,
          "20240101.060000".data, "20240102.000000".data]).map Prod.fst
        ↔ k ∈ (sortedGroupTimes ["20240102.120000".data,
          "20240101.060000".data, "20240102.000000".data]).map Prod.fst)
      ∧ ∀ k, List.Perm
          (bucketOf (groupTimes ["20240102.120000".data,
            "20240101.060000".data, "20240102.000000".data]) k)
          (bucketOf (sortedGroupTimes ["20240102.120000".data,
            "20240101.060000".data, "20240102.000000".data]) k)) :=
  ⟨by decide, variant_buckets_agree _ (by decide)⟩

/-- C10 (confirmed): `getPolygonColor` always returns one of the four
fixed RGBA strings, with red for `p ≥ 0.8`, orange for `0.6 ≤ p < 0.8`,
yellow for `0.4 ≤ p < 0.6` and green for `p < 0.4`, and its severity
rank is monotone in the probability. -/
theorem getPolygonColor_total_monotone :
    (∀ p : ℚ,
      (0.8 ≤ p → getPolygonColor p = "rgba(255, 0, 0, 0.5)")
      ∧ (0.6 ≤ p → p < 0.8 → getPolygonColor p = "rgba(255, 165, 0, 0.5)")
      ∧ (0.4 ≤ p → p < 0.6 → getPolygonColor p = "rgba(255, 255, 0, 0.5)")
      ∧ (p < 0.4 → getPolygonColor p = "rgba(0, 255, 0, 0.5)"))
    ∧ (∀ p : ℚ, getPolygonColor p = "rgba(255, 0, 0, 0.5)"
        ∨ getPolygonColor p = "rgba(255, 165, 0, 0.5)"
        ∨ getPolygonColor p = "rgba(255, 255, 0, 0.5)"
        ∨ getPolygonColor p = "rgba(0, 255, 0, 0.5)")
    ∧ ∀ p q : ℚ, p ≤ q →
        colorRank (getPolygonColor p) ≤ colorRank (getPolygonColor q) := by
  refine ⟨?_, ?_, ?_⟩
  · intro p
    refine ⟨?_, ?_, ?_, ?_⟩
    · intro h
      simp [getPolygonColor, ge_iff_le, h]
    · intro h1 h2
      have hn : ¬ (0.8 : ℚ) ≤ p := not_le.mpr h2
      simp [getPolygonColor, ge_iff_le, hn, h1]
    · intro h1 h2
      have hn8 : ¬ (0.8 : ℚ) ≤ p := not_le.mpr (lt_trans h2 (by norm_num))
      have hn6 : ¬ (0.6 : ℚ) ≤ p := not_le.mpr h2
      simp [getPolygonColor, ge_iff_le, hn8, hn6, h1]
    · intro h
      have hn8 : ¬ (0.8 : ℚ) ≤ p := not_le.mpr (lt_trans h (by norm_num))
      have hn6 : ¬ (0.6 : ℚ) ≤ p := not_le.mpr (lt_trans h (by norm_num))
      have hn4 : ¬ (0.4 : ℚ) ≤ p := not_le.mpr h
      simp [getPolygonColor, ge_iff_le, hn8, hn6, hn4]
  · intro p
    unfold getPolygonColor
    split_ifs
    · exact Or.inl rfl
    · exact Or.inr (Or.inl rfl)
    · exact Or.inr (Or.inr (Or.inl rfl))
    · exact Or.inr (Or.inr (Or.inr rfl))
  · intro p q hpq
    unfold getPolygonColor
    split_ifs <;> push_neg at * <;>
      first
        | decide
        | linarith

theorem getPolygonColor_total_monotone_witness :
    getPolygonColor 0.9 = "rgba(255, 0, 0, 0.5)"
    ∧ (0.5 : ℚ) ≤ 0.9
    ∧ colorRank (getPolygonColor 0.5) ≤ colorRank (getPolygonColor 0.9) :=
  ⟨(getPolygonColor_total_monotone.1 0.9).1 (by norm_num), by norm_num,
    getPolygonColor_total_monotone.2.2 0.5 0.9 (by norm_num)⟩

end AeroPulse
